import Mathlib

/-!
Verification of the reservoir sampler `sample_iter` from `carabiner/random.py`.

The Python function is embedded shallowly:

* the input iterable is a finite list `l : List α`; the iterator is the number
  of items consumed so far (`pos`);
* the shared random generator is abstracted as draw sequences indexed by call
  count: `rand n` is the value of the n-th call to `random()` (a real number,
  in `[0, 1)` for the actual generator), `rr n` is the raw draw behind the
  n-th call to `randrange(k)` (reduced mod `k`, as `randrange` returns a value
  in `[0, k)`), and `sj n` the raw draw behind the n-th swap index chosen by
  `random.shuffle` (Fisher-Yates);
* `math.log` and `math.log1p` keep their Python domain errors, float division
  by zero keeps its `ZeroDivisionError`, and `islice` rejects negative
  positions with `ValueError`; the arithmetic itself is exact real arithmetic;
* the dummy value `None` that the code writes over replaced reservoir entries
  is `Option.none`, so reservoir cells have type `Option α`.

The `while` loop is written with explicit fuel; the top level runs it with
fuel `l.length + 1`, which is proved sufficient (each continuing iteration
consumes at least one item of the stream).
-/

namespace Carabiner

/-- Python exceptions that the embedded code can raise. -/
inductive PyErr where
  | valueError : PyErr
  | zeroDivisionError : PyErr
deriving DecidableEq

/-- Python `math.log`: natural logarithm, raising `ValueError` (math domain
error) on inputs that are not strictly positive. -/
noncomputable def pyLog (x : ℝ) : Except PyErr ℝ :=
  if x ≤ 0 then .error .valueError else .ok (Real.log x)

/-- Python `math.log1p x = log (1 + x)`, raising `ValueError` when `1 + x` is
not strictly positive. -/
noncomputable def pyLog1p (x : ℝ) : Except PyErr ℝ :=
  if x ≤ -1 then .error .valueError else .ok (Real.log (1 + x))

/-- The random-number part of one iteration of the `while` loop of
`sample_iter` (`random.py`, lines 69-77):

    W *= random() ** kinv
    if W >= 1.: break
    skip = floor( log(random())/log1p(-W) )

Arguments: `w` is the current accumulator `W`, `u` the draw consumed by the
first `random()` call, `usk` the draw consumed by the second one.  Returns the
updated `W` together with `none` when the loop breaks (`W >= 1`), or with the
computed `skip` otherwise; an exception from `log`, `log1p` or the float
division is propagated. -/
noncomputable def drawStep (k : ℕ) (w u usk : ℝ) : Except PyErr (ℝ × Option ℤ) :=
  let W := w * u ^ ((1 : ℝ) / (k : ℝ))
  if 1 ≤ W then .ok (W, none)
  else
    match pyLog usk, pyLog1p (-W) with
    | .error e, _ => .error e
    | .ok _, .error e => .error e
    | .ok num, .ok den =>
      if den = 0 then .error .zeroDivisionError
      else .ok (W, some ⌊num / den⌋)

/-- State of the `while` loop of `sample_iter`.  `pos` is the number of items
consumed from the stream so far, `w` the accumulator `W`, `values` and
`indices` the Python locals of the same names (`indices`, a dict with keys
`0..m-1`, is the list of its values), `t` the number of completed loop
iterations.  `srcs` is a ghost field recording, for each position of
`values`, the 0-based stream index the item stored there was read from; it
influences neither control flow nor output and exists only to state
traceability. -/
structure SState (α : Type) where
  pos : ℕ
  w : ℝ
  values : List (Option α)
  indices : List ℕ
  srcs : List ℕ
  t : ℕ

/-- Outcome of one iteration of the `while` loop: `brk` leaves the loop with
the given state, `err` raises, `cont` goes around again. -/
inductive StepOut (α : Type) where
  | brk : SState α → StepOut α
  | err : PyErr → StepOut α
  | cont : SState α → StepOut α

/-- One full iteration of the `while` loop of `sample_iter` (`random.py`,
lines 67-87).  After the arithmetic of `drawStep`, the code advances the
stream past `skip` items via `next(islice(iterator, skip, skip+1))` — which
raises `ValueError` for a negative `skip` and signals `StopIteration`
(modelled as `brk` with the whole stream consumed) when fewer than `skip + 1`
items remain — and then admits the item read into the reservoir:

    remove_index = randrange(k)
    values[indices[remove_index]] = None
    indices[remove_index] = len(values)
    values.append(newval)
-/
noncomputable def stepFn (l : List α) (k : ℕ) (rand : ℕ → ℝ) (rr : ℕ → ℕ)
    (s : SState α) : StepOut α :=
  match drawStep k s.w (rand (2 * s.t)) (rand (2 * s.t + 1)) with
  | .error e => .err e
  | .ok (W, none) => .brk { s with w := W }
  | .ok (W, some skip) =>
    if skip < 0 then .err .valueError
    else if h : s.pos + skip.toNat < l.length then
      .cont { pos := s.pos + skip.toNat + 1
              w := W
              values := (s.values.set (s.indices.getD (rr s.t % k) 0) none) ++
                [some (l.get ⟨s.pos + skip.toNat, h⟩)]
              indices := s.indices.set (rr s.t % k) s.values.length
              srcs := s.srcs ++ [s.pos + skip.toNat]
              t := s.t + 1 }
    else .brk { s with w := W, pos := l.length }

/-- The `while` loop of `sample_iter`, with fuel.  `none` means the fuel ran
out (proved unreachable for fuel `> l.length - s.pos`). -/
noncomputable def sampleLoop (l : List α) (k : ℕ) (rand : ℕ → ℝ) (rr : ℕ → ℕ) :
    ℕ → SState α → Option (Except PyErr (SState α))
  | 0, _ => none
  | fuel + 1, s =>
    match stepFn l k rand rr s with
    | .brk s' => some (.ok s')
    | .err e => some (.error e)
    | .cont s' => sampleLoop l k rand rr fuel s'

/-- The state after lines 59-65 of `random.py`: the first `k` items are read
into `values`, `indices = dict(zip(irange, irange))` with
`irange = range(len(values))`, and `W = 1`. -/
def initState (l : List α) (k : ℕ) : SState α :=
  { pos := min k l.length
    w := 1
    values := (l.take k).map some
    indices := List.range (min k l.length)
    srcs := List.range (min k l.length)
    t := 0 }

/-- Swap the entries of a list at positions `i` and `j` (no-op when a position
is out of range, which never happens for the draws `random.shuffle` makes). -/
def swapList (x : List β) (i j : ℕ) : List β :=
  match x.get? i, x.get? j with
  | some a, some b => (x.set i b).set j a
  | _, _ => x

/-- The Fisher-Yates loop of `random.shuffle`: for `i` from `len(x)-1` down to
`1`, draw `j` in `[0, i+1)` and swap entries `i` and `j`.  The counter `c`
indexes the draws consumed. -/
def shuffleGo (sj : ℕ → ℕ) : ℕ → ℕ → List β → List β
  | 0, _, x => x
  | i + 1, c, x => shuffleGo sj i (c + 1) (swapList x (i + 1) (sj c % (i + 2)))

/-- Python `random.shuffle`, with `sj` the sequence of raw draws behind the
swap indices it picks. -/
def pyShuffle (sj : ℕ → ℕ) (x : List β) : List β :=
  shuffleGo sj (x.length - 1) 0 x

/-- Line 89 of `random.py`: `values = [values[indices[i]] for i in irange]`,
where `irange = range(len(values))` was captured before the loop, so it is
`range (min k l.length)`. -/
def finalValues (l : List α) (k : ℕ) (s : SState α) : List (Option α) :=
  (List.range (min k l.length)).map fun i => s.values.getD (s.indices.getD i 0) none

/-- Shallow embedding of `sample_iter` (`random.py`, lines 59-94).

Before the loop runs, `values = list(islice(iterator, k))` raises
`ValueError` when `k < 0` (`islice` rejects a negative stop) and
`kinv = 1. / k` raises `ZeroDivisionError` when `k = 0`.  After the loop, the
code rebuilds the output as `[values[indices[i]] for i in irange]` and
shuffles it when `shuffle_output` is true.  The result is `none` if the loop
fuel ran out (proved impossible), otherwise the raised exception or the
returned list. -/
noncomputable def sample_iter (l : List α) (k : ℤ) (shuffle_output : Bool)
    (rand : ℕ → ℝ) (rr : ℕ → ℕ) (sj : ℕ → ℕ) :
    Option (Except PyErr (List (Option α))) :=
  if k < 0 then some (.error .valueError)
  else if k = 0 then some (.error .zeroDivisionError)
  else
    match sampleLoop l k.toNat rand rr (l.length + 1) (initState l k.toNat) with
    | none => none
    | some (.error e) => some (.error e)
    | some (.ok s) =>
      let out := finalValues l k.toNat s
      some (.ok (if shuffle_output then pyShuffle sj out else out))

/-- The skip-step arithmetic exactly as the spec states it (section 4.1,
steps 2a-2c): draw `W_next = W * U^(1/k)`; if `W_next >= 1.0` terminate the
loop, otherwise the skip count is `floor(ln U_fresh / ln(1 - W_next))` from a
fresh uniform draw.  Stated from the words of the spec, to be compared with
`drawStep`, which is read off the code. -/
noncomputable def specDrawStep (k : ℕ) (W u ufresh : ℝ) : Option (ℝ × ℤ) :=
  let Wn := W * u ^ ((1 : ℝ) / (k : ℝ))
  if 1 ≤ Wn then none
  else some (Wn, ⌊Real.log ufresh / Real.log (1 - Wn)⌋)

/-- The reservoir semantics as the spec describes it (section 4.1 step 2e and
the section 9 note on slot-overwrite order): a slot array of fixed size in
which an admission overwrites the slot drawn by `randrange(k)`, returned
as-is (slot order) when `shuffle_output` is false.  The draw arithmetic is
shared with the code (`drawStep`); only the reservoir bookkeeping differs.
Stated from the words of the spec, to be compared with `sample_iter`. -/
noncomputable def slotLoop (l : List α) (k : ℕ) (rand : ℕ → ℝ) (rr : ℕ → ℕ) :
    ℕ → ℕ → ℝ → ℕ → List (Option α) → Option (Except PyErr (List (Option α)))
  | 0, _, _, _, _ => none
  | fuel + 1, pos, w, t, res =>
    match drawStep k w (rand (2 * t)) (rand (2 * t + 1)) with
    | .error e => some (.error e)
    | .ok (_, none) => some (.ok res)
    | .ok (W, some skip) =>
      if skip < 0 then some (.error .valueError)
      else if h : pos + skip.toNat < l.length then
        slotLoop l k rand rr fuel (pos + skip.toNat + 1) W (t + 1)
          (res.set (rr t % k) (some (l.get ⟨pos + skip.toNat, h⟩)))
      else some (.ok res)

/-- Top level of the spec-side slot semantics, with the same entry behaviour
as `sample_iter` (errors for `k < 1`, initial fill of `min k n` slots). -/
noncomputable def slotRun (l : List α) (k : ℤ) (rand : ℕ → ℝ) (rr : ℕ → ℕ) :
    Option (Except PyErr (List (Option α))) :=
  if k < 0 then some (.error .valueError)
  else if k = 0 then some (.error .zeroDivisionError)
  else slotLoop l k.toNat rand rr (l.length + 1) (min k.toNat l.length) 1 0
    ((l.take k.toNat).map some)

/-- Reachability: `Reaches l k rand rr s sf` holds when the loop state `sf`
occurs during the run of the `while` loop started at state `s`
(reflexive-transitive closure of one continuing iteration). -/
inductive Reaches (l : List α) (k : ℕ) (rand : ℕ → ℝ) (rr : ℕ → ℕ) :
    SState α → SState α → Prop
  | refl (s : SState α) : Reaches l k rand rr s s
  | step {s s' s'' : SState α} : Reaches l k rand rr s s' →
      stepFn l k rand rr s' = .cont s'' → Reaches l k rand rr s s''

/-- Predicate: `out` traces to distinct input positions, i.e. there is a
duplicate-free list of stream indices whose lookups produce exactly `out`. -/
def TracesDistinct (l : List α) (out : List (Option α)) : Prop :=
  ∃ tr : List ℕ, tr.Nodup ∧ out = tr.map fun j => l.get? j

/-- Structural invariant of the `while` loop of `sample_iter`, relative to the
stream `l` and the capacity `k`.  `min k l.length` is the size of the initial
fill, which never changes afterwards. -/
structure Inv (l : List α) (k : ℕ) (s : SState α) : Prop where
  pos_le : s.pos ≤ l.length
  pos_ge : min k l.length ≤ s.pos
  idx_len : s.indices.length = min k l.length
  val_len : s.values.length = min k l.length + s.t
  src_len : s.srcs.length = s.values.length
  idx_lt : ∀ x ∈ s.indices, x < s.values.length
  idx_nodup : s.indices.Nodup
  live : ∀ x ∈ s.indices, (s.values.getD x none).isSome
  trace : ∀ j v, s.values.getD j none = some v → l.get? (s.srcs.getD j 0) = some v
  src_sorted : s.srcs.Pairwise (· < ·)
  src_lt_pos : ∀ x ∈ s.srcs, x < s.pos

/-! ### Generic list helper lemmas -/

theorem set_get_self : ∀ (l : List β) (n : ℕ) (h : n < l.length),
    l.set n (l.get ⟨n, h⟩) = l
  | _ :: _, 0, _ => rfl
  | a :: l, n + 1, h =>
    congrArg (a :: ·) (set_get_self l n (Nat.lt_of_succ_lt_succ h))

theorem nodup_set_of_not_mem : ∀ (l : List ℕ) (r v : ℕ), l.Nodup → v ∉ l →
    (l.set r v).Nodup
  | [], _, _, _, _ => by simp
  | a :: l, 0, v, h, hv => by
    simp only [List.set_cons_zero, List.nodup_cons] at h ⊢
    exact ⟨fun hm => hv (List.mem_cons_of_mem a hm), h.2⟩
  | a :: l, r + 1, v, h, hv => by
    simp only [List.set_cons_succ, List.nodup_cons] at h ⊢
    refine ⟨fun hm => ?_, nodup_set_of_not_mem l r v h.2 fun hm => hv (List.mem_cons_of_mem a hm)⟩
    rcases List.mem_or_eq_of_mem_set hm with hm' | rfl
    · exact h.1 hm'
    · exact hv (List.mem_cons_self a l)

theorem getD_set_ne (l : List β) (d : β) (i j : ℕ) (v : β) (h : i ≠ j) :
    (l.set i v).getD j d = l.getD j d := by
  simp [List.getD, List.getElem?_set_ne h]

theorem getD_set_self (l : List β) (d : β) (i : ℕ) (v : β) (h : i < l.length) :
    (l.set i v).getD i d = v := by
  simp [List.getD, List.getElem?_set_self, h]

theorem getD_append_left (xs ys : List β) (d : β) (i : ℕ) (h : i < xs.length) :
    (xs ++ ys).getD i d = xs.getD i d := by
  rw [List.getD_append _ _ _ _ h]

theorem getD_append_last (xs : List β) (y d : β) :
    (xs ++ [y]).getD xs.length d = y := by
  simp [List.getD_append_right]

theorem mem_set_ne_replaced {idx : List ℕ} {r L x : ℕ} (hnd : idx.Nodup)
    (hr : r < idx.length) (hx : x ∈ idx.set r L) (hxL : x ≠ L) :
    x ∈ idx ∧ x ≠ idx.getD r 0 := by
  obtain ⟨p, hp, hpe⟩ := List.getElem_of_mem hx
  by_cases hpr : p = r
  · subst hpr
    rw [List.getElem_set_self hp] at hpe
    exact absurd hpe.symm hxL
  · rw [List.getElem_set_ne (fun h => hpr h.symm) hp] at hpe
    have hp' : p < idx.length := by simpa using hp
    refine ⟨hpe ▸ List.getElem_mem hp', ?_⟩
    rw [List.getD_eq_getElem _ _ hr]
    intro hcontra
    exact hpr ((hnd.getElem_inj_iff).mp (hpe.trans hcontra))

theorem getD_range (n i : ℕ) (h : i < n) : (List.range n).getD i 0 = i := by
  rw [List.getD_eq_getElem _ 0 (by simpa using h)]
  simp

/-! ### The structural loop invariant -/

theorem inv_init (l : List α) (k : ℕ) : Inv l k (initState l k) := by
  constructor <;> simp only [initState]
  · exact min_le_right _ _
  · exact le_rfl
  · simp
  · simp [Nat.min_comm]
  · simp
  · intro x hx
    simpa [Nat.min_comm] using List.mem_range.mp hx
  · exact List.nodup_range _
  · intro x hx
    have hx' : x < min k l.length := List.mem_range.mp hx
    rw [List.getD_eq_getElem _ none (by simpa [Nat.min_comm] using hx')]
    simp
  · intro j v hj
    have hjlt : j < min k l.length := by
      by_contra hge
      rw [List.getD_eq_default _ _ (by simpa [Nat.min_comm] using Nat.le_of_not_lt hge)] at hj
      exact Option.noConfusion hj
    rw [List.getD_eq_getElem _ none (by simpa [Nat.min_comm] using hjlt)] at hj
    simp only [List.getElem_map, Option.some.injEq] at hj
    rw [getD_range _ _ hjlt,
      List.get?_eq_get (lt_of_lt_of_le hjlt (min_le_right _ _))]
    simp only [List.get_eq_getElem, Option.some.injEq]
    rw [← hj]
    exact (List.getElem_take l).symm
  · exact List.pairwise_lt_range _
  · intro x hx
    simpa using List.mem_range.mp hx

/-! ### Characterisation of one loop iteration under in-range draws -/

theorem drawStep_ok {k : ℕ} {w u usk : ℝ} (hk : 1 ≤ k) (hw0 : 0 < w) (hw1 : w ≤ 1)
    (hu0 : 0 < u) (hu1 : u < 1) (husk0 : 0 < usk) (husk1 : usk < 1) :
    ∃ W sk, drawStep k w u usk = .ok (W, some sk) ∧
      W = w * u ^ ((1 : ℝ) / (k : ℝ)) ∧ 0 < W ∧ W < 1 ∧ W ≤ w ∧
      sk = ⌊Real.log usk / Real.log (1 - W)⌋ ∧ 0 ≤ sk := by
  have hkR : (1 : ℝ) ≤ (k : ℝ) := by exact_mod_cast hk
  have hkinv : 0 < (1 : ℝ) / (k : ℝ) := by
    apply div_pos one_pos; linarith
  have hpow0 : 0 < u ^ ((1 : ℝ) / (k : ℝ)) := Real.rpow_pos_of_pos hu0 _
  have hpow1 : u ^ ((1 : ℝ) / (k : ℝ)) < 1 := Real.rpow_lt_one (le_of_lt hu0) hu1 hkinv
  have hW0 : 0 < w * u ^ ((1 : ℝ) / (k : ℝ)) := mul_pos hw0 hpow0
  have hWw : w * u ^ ((1 : ℝ) / (k : ℝ)) < w := by
    calc w * u ^ ((1 : ℝ) / (k : ℝ)) < w * 1 := mul_lt_mul_of_pos_left hpow1 hw0
    _ = w := mul_one w
  have hW1 : w * u ^ ((1 : ℝ) / (k : ℝ)) < 1 := lt_of_lt_of_le hWw hw1
  have hnum : Real.log usk < 0 := Real.log_neg husk0 husk1
  have h1W : (1 : ℝ) + -(w * u ^ ((1 : ℝ) / (k : ℝ))) = 1 - w * u ^ ((1 : ℝ) / (k : ℝ)) := by
    ring
  have hden : Real.log (1 + -(w * u ^ ((1 : ℝ) / (k : ℝ)))) < 0 := by
    rw [h1W]; exact Real.log_neg (by linarith) (by linarith)
  refine ⟨w * u ^ ((1 : ℝ) / (k : ℝ)),
    ⌊Real.log usk / Real.log (1 + -(w * u ^ ((1 : ℝ) / (k : ℝ))))⌋,
    ?_, rfl, hW0, hW1, le_of_lt hWw, ?_, ?_⟩
  · simp only [drawStep, pyLog, pyLog1p]
    rw [if_neg (not_le.mpr hW1), if_neg (not_le.mpr husk0),
      if_neg (show ¬ -(w * u ^ ((1 : ℝ) / (k : ℝ))) ≤ -1 by intro hc; linarith)]
    dsimp only
    rw [if_neg (ne_of_lt hden)]
  · rw [h1W]
  · exact Int.floor_nonneg.mpr (le_of_lt (div_pos_of_neg_of_neg hnum hden))

theorem stepFn_cases {l : List α} {k : ℕ} {rand : ℕ → ℝ} {rr : ℕ → ℕ} (s : SState α)
    (hk : 1 ≤ k) (hw0 : 0 < s.w) (hw1 : s.w ≤ 1)
    (hr : ∀ i, 0 < rand i ∧ rand i < 1) :
    ∃ W sk, 0 < W ∧ W < 1 ∧ W ≤ s.w ∧ (0 : ℤ) ≤ sk ∧
      W = s.w * (rand (2 * s.t)) ^ ((1 : ℝ) / (k : ℝ)) ∧
      sk = ⌊Real.log (rand (2 * s.t + 1)) / Real.log (1 - W)⌋ ∧
      ((∃ h : s.pos + sk.toNat < l.length,
          stepFn l k rand rr s = .cont
            { pos := s.pos + sk.toNat + 1
              w := W
              values := (s.values.set (s.indices.getD (rr s.t % k) 0) none) ++
                [some (l.get ⟨s.pos + sk.toNat, h⟩)]
              indices := s.indices.set (rr s.t % k) s.values.length
              srcs := s.srcs ++ [s.pos + sk.toNat]
              t := s.t + 1 }) ∨
        (l.length ≤ s.pos + sk.toNat ∧
          stepFn l k rand rr s = .brk { s with w := W, pos := l.length })) := by
  obtain ⟨W, sk, hds, hWeq, hW0, hW1, hWw, hskeq, hsk0⟩ :=
    drawStep_ok (w := s.w) hk hw0 hw1 (hr (2 * s.t)).1 (hr (2 * s.t)).2
      (hr (2 * s.t + 1)).1 (hr (2 * s.t + 1)).2
  refine ⟨W, sk, hW0, hW1, hWw, hsk0, hWeq, hskeq, ?_⟩
  rw [stepFn.eq_1, hds]
  dsimp only
  rw [if_neg (not_lt.mpr hsk0)]
  by_cases h : s.pos + sk.toNat < l.length
  · exact Or.inl ⟨h, by rw [dif_pos h]⟩
  · exact Or.inr ⟨le_of_not_lt h, by rw [dif_neg h]⟩

/-! ### Invariant preservation -/

theorem min_eq_k_of_admission {l : List α} {k : ℕ} {s : SState α} (hinv : Inv l k s)
    {d : ℕ} (hd : s.pos + d < l.length) : min k l.length = k := by
  rcases le_total k l.length with h' | h'
  · exact min_eq_left h'
  · exfalso
    have := hinv.pos_ge
    rw [min_eq_right h'] at this
    omega

theorem inv_admission {l : List α} {k : ℕ} (s : SState α) (hinv : Inv l k s) (hk : 1 ≤ k)
    (W : ℝ) (r d : ℕ) (hd : s.pos + d < l.length) :
    Inv l k { pos := s.pos + d + 1
              w := W
              values := (s.values.set (s.indices.getD (r % k) 0) none) ++
                [some (l.get ⟨s.pos + d, hd⟩)]
              indices := s.indices.set (r % k) s.values.length
              srcs := s.srcs ++ [s.pos + d]
              t := s.t + 1 } := by
  have hmk : min k l.length = k := min_eq_k_of_admission hinv hd
  have hrk : r % k < k := Nat.mod_lt r (by omega)
  have hridx : r % k < s.indices.length := by rw [hinv.idx_len, hmk]; exact hrk
  have hold_mem : s.indices.getD (r % k) 0 ∈ s.indices := by
    rw [List.getD_eq_getElem _ _ hridx]
    exact List.getElem_mem hridx
  have hold_lt : s.indices.getD (r % k) 0 < s.values.length := hinv.idx_lt _ hold_mem
  have hfresh : s.values.length ∉ s.indices := fun hmem =>
    lt_irrefl _ (hinv.idx_lt _ hmem)
  have hsetlen : (s.values.set (s.indices.getD (r % k) 0) none).length =
      s.values.length := by simp
  constructor <;> dsimp only
  · exact hd
  · exact le_trans hinv.pos_ge (by omega)
  · simpa using hinv.idx_len
  · simp [hinv.val_len]; omega
  · simp [hinv.src_len]
  · intro x hx
    simp only [List.length_append, hsetlen, List.length_cons, List.length_nil]
    rcases List.mem_or_eq_of_mem_set hx with hx' | rfl
    · exact lt_of_lt_of_le (hinv.idx_lt _ hx') (by omega)
    · omega
  · exact nodup_set_of_not_mem _ _ _ hinv.idx_nodup hfresh
  · intro x hx
    by_cases hxL : x = s.values.length
    · subst hxL
      rw [← hsetlen, getD_append_last]
      rfl
    · obtain ⟨hx', hxold⟩ := mem_set_ne_replaced hinv.idx_nodup hridx hx hxL
      have hxlt : x < s.values.length := hinv.idx_lt _ hx'
      rw [getD_append_left _ _ _ _ (by rwa [hsetlen]),
        getD_set_ne _ _ _ _ _ (fun h => hxold h.symm)]
      exact hinv.live _ hx'
  · intro j v hj
    rcases lt_trichotomy j s.values.length with hjlt | hjeq | hjgt
    · rw [getD_append_left _ _ _ _ (by rwa [hsetlen])] at hj
      by_cases hjold : j = s.indices.getD (r % k) 0
      · subst hjold
        rw [getD_set_self _ _ _ _ hold_lt] at hj
        exact absurd hj (by simp)
      · rw [getD_set_ne _ _ _ _ _ (fun h => hjold h.symm)] at hj
        rw [getD_append_left _ _ _ _ (by rw [hinv.src_len]; exact hjlt)]
        exact hinv.trace j v hj
    · subst hjeq
      rw [← hsetlen, getD_append_last] at hj
      rw [← hinv.src_len, getD_append_last]
      rw [List.get?_eq_get hd]
      cases hj
      rfl
    · rw [List.getD_eq_default _ _ (by simp [hsetlen]; omega)] at hj
      exact absurd hj (by simp)
  · rw [List.pairwise_append]
    refine ⟨hinv.src_sorted, by simp, ?_⟩
    intro a ha b hb
    rw [List.mem_singleton] at hb
    subst hb
    exact lt_of_lt_of_le (hinv.src_lt_pos a ha) (by omega)
  · intro x hx
    rcases List.mem_append.mp hx with hx' | hx'
    · exact lt_of_lt_of_le (hinv.src_lt_pos x hx') (by omega)
    · rw [List.mem_singleton] at hx'
      omega

theorem inv_brk {l : List α} {k : ℕ} (s : SState α) (hinv : Inv l k s) (W : ℝ) :
    Inv l k { s with w := W, pos := l.length } := by
  constructor
  · exact le_rfl
  · exact min_le_right _ _
  · exact hinv.idx_len
  · exact hinv.val_len
  · exact hinv.src_len
  · exact hinv.idx_lt
  · exact hinv.idx_nodup
  · exact hinv.live
  · exact hinv.trace
  · exact hinv.src_sorted
  · intro x hx
    exact lt_of_lt_of_le (hinv.src_lt_pos x hx) hinv.pos_le

/-- The loop, run with enough fuel and in-range draws, returns a final state
that still satisfies the invariant. -/
theorem sampleLoop_ok {l : List α} {k : ℕ} {rand : ℕ → ℝ} {rr : ℕ → ℕ}
    (hk : 1 ≤ k) (hr : ∀ i, 0 < rand i ∧ rand i < 1) :
    ∀ (fuel : ℕ) (s : SState α), Inv l k s → 0 < s.w → s.w ≤ 1 →
      l.length - s.pos < fuel →
      ∃ s', sampleLoop l k rand rr fuel s = some (.ok s') ∧ Inv l k s' := by
  intro fuel
  induction fuel with
  | zero => intro s _ _ _ hfuel; exact absurd hfuel (by omega)
  | succ fuel ih =>
    intro s hinv hw0 hw1 hfuel
    obtain ⟨W, sk, hW0, hW1, hWw, hsk0, _, _, hcase⟩ :=
      stepFn_cases s hk hw0 hw1 hr
    rcases hcase with ⟨h, hstep⟩ | ⟨h, hstep⟩
    · have hinvstep := inv_admission s hinv hk W (rr s.t) sk.toNat h
      have hfb : l.length - (s.pos + sk.toNat + 1) < fuel := by omega
      obtain ⟨s', hs', hinv'⟩ :=
        ih _ hinvstep hW0 (le_of_lt hW1) (by dsimp only; exact hfb)
      refine ⟨s', ?_, hinv'⟩
      rw [sampleLoop, hstep]
      exact hs'
    · refine ⟨{ s with w := W, pos := l.length }, ?_, inv_brk s hinv W⟩
      rw [sampleLoop, hstep]

/-! ### Traceability of the output to distinct stream positions -/

theorem exists_perm_map_of_perm {f : ℕ → Option α} {o₁ o₂ : List (Option α)}
    (hp : o₁.Perm o₂) : ∀ tr : List ℕ, o₁ = tr.map f →
      ∃ tr₂, tr.Perm tr₂ ∧ o₂ = tr₂.map f := by
  induction hp with
  | nil =>
    intro tr h
    exact ⟨tr, .refl tr, h⟩
  | cons x p ihp =>
    intro tr h
    cases tr with
    | nil => exact absurd h (by simp)
    | cons j tr' =>
      simp only [List.map_cons, List.cons.injEq] at h
      obtain ⟨tr₂, hperm, heq⟩ := ihp tr' h.2
      exact ⟨j :: tr₂, hperm.cons j, by simp [heq, h.1]⟩
  | swap x y t =>
    intro tr h
    match tr with
    | [] => exact absurd h (by simp)
    | [_] => exact absurd h (by simp)
    | j₁ :: j₂ :: tr₂ =>
      simp only [List.map_cons, List.cons.injEq] at h
      refine ⟨j₂ :: j₁ :: tr₂, List.Perm.swap j₂ j₁ tr₂, ?_⟩
      simp [h.1, h.2.1, h.2.2]
  | trans p₁ p₂ ih₁ ih₂ =>
    intro tr h
    obtain ⟨trm, hp1, he1⟩ := ih₁ tr h
    obtain ⟨tr₂, hp2, he2⟩ := ih₂ trm he1
    exact ⟨tr₂, hp1.trans hp2, he2⟩

theorem TracesDistinct.perm {l : List α} {o₁ o₂ : List (Option α)}
    (h : TracesDistinct l o₁) (hp : o₁.Perm o₂) : TracesDistinct l o₂ := by
  obtain ⟨tr, hnd, heq⟩ := h
  obtain ⟨tr₂, hperm, heq₂⟩ := exists_perm_map_of_perm hp tr heq
  exact ⟨tr₂, hnd.perm hperm, heq₂⟩

theorem finalValues_length (l : List α) (k : ℕ) (s : SState α) :
    (finalValues l k s).length = min k l.length := by
  simp [finalValues]

theorem finalValues_mem {l : List α} {k : ℕ} {s : SState α} (hinv : Inv l k s) :
    ∀ o ∈ finalValues l k s, ∃ v, o = some v ∧ v ∈ l := by
  intro o ho
  simp only [finalValues, List.mem_map, List.mem_range] at ho
  obtain ⟨i, hi, rfl⟩ := ho
  have hiidx : i < s.indices.length := by rw [hinv.idx_len]; exact hi
  have hmem : s.indices.getD i 0 ∈ s.indices := by
    rw [List.getD_eq_getElem _ _ hiidx]
    exact List.getElem_mem hiidx
  obtain ⟨v, hv⟩ := Option.isSome_iff_exists.mp (hinv.live _ hmem)
  exact ⟨v, hv, List.get?_mem (hinv.trace _ v hv)⟩

theorem finalValues_traces {l : List α} {k : ℕ} {s : SState α} (hinv : Inv l k s) :
    TracesDistinct l (finalValues l k s) := by
  refine ⟨(List.range (min k l.length)).map fun i => s.srcs.getD (s.indices.getD i 0) 0,
    ?_, ?_⟩
  · refine List.Nodup.map_on ?_ (List.nodup_range _)
    intro i₁ h₁ i₂ h₂ heq
    rw [List.mem_range] at h₁ h₂
    have hi₁ : i₁ < s.indices.length := by rw [hinv.idx_len]; exact h₁
    have hi₂ : i₂ < s.indices.length := by rw [hinv.idx_len]; exact h₂
    by_contra hne
    have hidxne : s.indices.getD i₁ 0 ≠ s.indices.getD i₂ 0 := by
      rw [List.getD_eq_getElem _ _ hi₁, List.getD_eq_getElem _ _ hi₂]
      intro hc
      exact hne ((hinv.idx_nodup.getElem_inj_iff).mp hc)
    have hlt₁ : s.indices.getD i₁ 0 < s.srcs.length := by
      rw [hinv.src_len]
      refine hinv.idx_lt _ ?_
      rw [List.getD_eq_getElem _ _ hi₁]
      exact List.getElem_mem hi₁
    have hlt₂ : s.indices.getD i₂ 0 < s.srcs.length := by
      rw [hinv.src_len]
      refine hinv.idx_lt _ ?_
      rw [List.getD_eq_getElem _ _ hi₂]
      exact List.getElem_mem hi₂
    have hsrc := List.pairwise_iff_getElem.mp hinv.src_sorted
    rcases lt_trichotomy (s.indices.getD i₁ 0) (s.indices.getD i₂ 0) with hlt | heqi | hgt
    · have := hsrc _ _ hlt₁ hlt₂ hlt
      rw [List.getD_eq_getElem _ _ hlt₁, List.getD_eq_getElem _ _ hlt₂] at heq
      omega
    · exact hidxne heqi
    · have := hsrc _ _ hlt₂ hlt₁ hgt
      rw [List.getD_eq_getElem _ _ hlt₁, List.getD_eq_getElem _ _ hlt₂] at heq
      omega
  · rw [finalValues, List.map_map]
    refine List.map_congr_left ?_
    intro i hi
    rw [List.mem_range] at hi
    have hiidx : i < s.indices.length := by rw [hinv.idx_len]; exact hi
    have hmem : s.indices.getD i 0 ∈ s.indices := by
      rw [List.getD_eq_getElem _ _ hiidx]
      exact List.getElem_mem hiidx
    obtain ⟨v, hv⟩ := Option.isSome_iff_exists.mp (hinv.live _ hmem)
    rw [hv, Function.comp_apply, hinv.trace _ v hv]

/-! ### `random.shuffle` returns a permutation -/

theorem perm_two_swap (A M B : List β) (a b : β) :
    List.Perm (A ++ b :: (M ++ a :: B)) (A ++ a :: (M ++ b :: B)) := by
  refine List.Perm.append_left A ?_
  have h₁ : List.Perm (b :: (M ++ a :: B)) (b :: a :: (M ++ B)) :=
    List.Perm.cons b List.perm_middle
  have h₂ : List.Perm (b :: a :: (M ++ B)) (a :: b :: (M ++ B)) :=
    List.Perm.swap a b (M ++ B)
  have h₃ : List.Perm (a :: b :: (M ++ B)) (a :: (M ++ b :: B)) :=
    List.Perm.cons a List.perm_middle.symm
  exact (h₁.trans h₂).trans h₃

theorem set_set_perm_of_lt (x : List β) (i j : ℕ) (hij : i < j) (hj : j < x.length) :
    List.Perm ((x.set i (x.get ⟨j, hj⟩)).set j (x.get ⟨i, lt_trans hij hj⟩)) x := by
  have hi : i < x.length := lt_trans hij hj
  have hidx : j - i - 1 + 1 = j - i := by omega
  have hxi : x = x.take i ++ x.get ⟨i, hi⟩ :: x.drop (i + 1) := by
    conv_lhs => rw [← set_get_self x i hi]
    exact List.set_eq_take_cons_drop _ hi
  have hset : x.set i (x.get ⟨j, hj⟩) =
      x.take i ++ x.get ⟨j, hj⟩ :: x.drop (i + 1) :=
    List.set_eq_take_cons_drop _ hi
  have htklen : (x.take i).length = i := by
    rw [List.length_take]
    exact min_eq_left (le_of_lt hi)
  have hjD : j - i - 1 < (x.drop (i + 1)).length := by
    rw [List.length_drop]
    omega
  have hDj : (x.drop (i + 1)).get ⟨j - i - 1, hjD⟩ = x.get ⟨j, hj⟩ := by
    simp only [List.get_eq_getElem, List.getElem_drop]
    congr 1
    omega
  have hD : x.drop (i + 1) =
      (x.drop (i + 1)).take (j - i - 1) ++
        x.get ⟨j, hj⟩ :: (x.drop (i + 1)).drop (j - i) := by
    conv_lhs => rw [← set_get_self (x.drop (i + 1)) (j - i - 1) hjD]
    rw [List.set_eq_take_cons_drop _ hjD, hDj, hidx]
  have hsetD : (x.drop (i + 1)).set (j - i - 1) (x.get ⟨i, hi⟩) =
      (x.drop (i + 1)).take (j - i - 1) ++
        x.get ⟨i, hi⟩ :: (x.drop (i + 1)).drop (j - i) := by
    rw [List.set_eq_take_cons_drop _ hjD, hidx]
  have hfull : (x.set i (x.get ⟨j, hj⟩)).set j (x.get ⟨i, hi⟩) =
      x.take i ++ x.get ⟨j, hj⟩ ::
        ((x.drop (i + 1)).take (j - i - 1) ++
          x.get ⟨i, hi⟩ :: (x.drop (i + 1)).drop (j - i)) := by
    rw [hset, List.set_append_right _ _ (by omega : (x.take i).length ≤ j)]
    have hsub : j - (x.take i).length = (j - i - 1) + 1 := by rw [htklen]; omega
    rw [hsub, List.set_cons_succ, hsetD]
  have hswap : List.Perm ((x.set i (x.get ⟨j, hj⟩)).set j (x.get ⟨i, hi⟩))
      (x.take i ++ x.get ⟨i, hi⟩ ::
        ((x.drop (i + 1)).take (j - i - 1) ++
          x.get ⟨j, hj⟩ :: (x.drop (i + 1)).drop (j - i))) := by
    rw [hfull]
    exact perm_two_swap _ _ _ _ _
  have hback : x = x.take i ++ x.get ⟨i, hi⟩ ::
      ((x.drop (i + 1)).take (j - i - 1) ++
        x.get ⟨j, hj⟩ :: (x.drop (i + 1)).drop (j - i)) := by
    rw [← hD]
    exact hxi
  refine hswap.trans ?_
  conv_rhs => rw [hback]

theorem swapList_perm (x : List β) (i j : ℕ) : List.Perm (swapList x i j) x := by
  rcases hgi : x.get? i with _ | a <;> rcases hgj : x.get? j with _ | b <;>
    simp only [swapList, hgi, hgj] <;>
    try exact .refl x
  have hi : i < x.length := by
    by_contra hc
    rw [List.get?_eq_none.mpr (le_of_not_lt hc)] at hgi
    exact Option.noConfusion hgi
  have hj : j < x.length := by
    by_contra hc
    rw [List.get?_eq_none.mpr (le_of_not_lt hc)] at hgj
    exact Option.noConfusion hgj
  have hai : a = x.get ⟨i, hi⟩ := by
    rw [List.get?_eq_get hi] at hgi
    exact (Option.some.injEq _ _ ▸ hgi).symm
  have hbj : b = x.get ⟨j, hj⟩ := by
    rw [List.get?_eq_get hj] at hgj
    exact (Option.some.injEq _ _ ▸ hgj).symm
  subst hai hbj
  rcases lt_trichotomy i j with hij | hij | hij
  · exact set_set_perm_of_lt x i j hij hj
  · subst hij
    rw [List.set_set, set_get_self]
  · rw [List.set_comm _ _ _ (Nat.ne_of_gt hij)]
    exact set_set_perm_of_lt x j i hij hi

theorem shuffleGo_perm (sj : ℕ → ℕ) : ∀ (i c : ℕ) (x : List β),
    List.Perm (shuffleGo sj i c x) x
  | 0, _, x => .refl x
  | i + 1, c, x =>
    (shuffleGo_perm sj i (c + 1) _).trans (swapList_perm x (i + 1) (sj c % (i + 2)))

theorem pyShuffle_perm (sj : ℕ → ℕ) (x : List β) : List.Perm (pyShuffle sj x) x :=
  shuffleGo_perm sj (x.length - 1) 0 x

/-! ### Inversion of one loop step, reachability, termination -/

theorem stepFn_cont_inv {l : List α} {k : ℕ} {rand : ℕ → ℝ} {rr : ℕ → ℕ}
    {s s' : SState α} (hc : stepFn l k rand rr s = .cont s') :
    ∃ (W : ℝ) (d : ℕ) (hd : s.pos + d < l.length),
      s' = { pos := s.pos + d + 1
             w := W
             values := (s.values.set (s.indices.getD (rr s.t % k) 0) none) ++
               [some (l.get ⟨s.pos + d, hd⟩)]
             indices := s.indices.set (rr s.t % k) s.values.length
             srcs := s.srcs ++ [s.pos + d]
             t := s.t + 1 } := by
  rw [stepFn.eq_1] at hc
  cases hds : drawStep k s.w (rand (2 * s.t)) (rand (2 * s.t + 1)) with
  | error e =>
    rw [hds] at hc
    exact StepOut.noConfusion hc
  | ok p =>
    obtain ⟨W, osk⟩ := p
    rw [hds] at hc
    cases osk with
    | none => exact StepOut.noConfusion hc
    | some skip =>
      dsimp only at hc
      by_cases hneg : skip < 0
      · rw [if_pos hneg] at hc
        exact StepOut.noConfusion hc
      · rw [if_neg hneg] at hc
        by_cases hlt : s.pos + skip.toNat < l.length
        · rw [dif_pos hlt] at hc
          injection hc with hc'
          exact ⟨W, skip.toNat, hlt, hc'.symm⟩
        · rw [dif_neg hlt] at hc
          exact StepOut.noConfusion hc

theorem reaches_inv {l : List α} {k : ℕ} {rand : ℕ → ℝ} {rr : ℕ → ℕ}
    {s : SState α} (hk : 1 ≤ k)
    (h : Reaches l k rand rr (initState l k) s) : Inv l k s := by
  induction h with
  | refl => exact inv_init l k
  | step _ hcont ih =>
    obtain ⟨W, d, hd, rfl⟩ := stepFn_cont_inv hcont
    exact inv_admission _ ih hk W _ d hd

theorem stepFn_cont_pos {l : List α} {k : ℕ} {rand : ℕ → ℝ} {rr : ℕ → ℕ}
    {s s' : SState α} (hc : stepFn l k rand rr s = .cont s') :
    s.pos < s'.pos ∧ s'.pos ≤ l.length := by
  obtain ⟨W, d, hd, rfl⟩ := stepFn_cont_inv hc
  exact ⟨by dsimp only; omega, by dsimp only; omega⟩

theorem sampleLoop_isSome {l : List α} {k : ℕ} {rand : ℕ → ℝ} {rr : ℕ → ℕ} :
    ∀ (fuel : ℕ) (s : SState α), l.length - s.pos < fuel →
      ∃ r, sampleLoop l k rand rr fuel s = some r := by
  intro fuel
  induction fuel with
  | zero => intro s hfuel; exact absurd hfuel (by omega)
  | succ fuel ih =>
    intro s hfuel
    rw [sampleLoop]
    cases hstep : stepFn l k rand rr s with
    | brk s' => exact ⟨.ok s', rfl⟩
    | err e => exact ⟨.error e, rfl⟩
    | cont s' =>
      obtain ⟨hlt, hle⟩ := stepFn_cont_pos hstep
      exact ih s' (by omega)

/-- With `1 <= k`, `sample_iter` is the loop result with the output
comprehension (and optional shuffle) applied to the final state. -/
theorem sample_iter_eq_map (l : List α) (k : ℤ) (hk : 1 ≤ k) (sh : Bool)
    (rand : ℕ → ℝ) (rr sj : ℕ → ℕ) :
    sample_iter l k sh rand rr sj =
      Option.map (Except.map fun s =>
        if sh then pyShuffle sj (finalValues l k.toNat s) else finalValues l k.toNat s)
        (sampleLoop l k.toNat rand rr (l.length + 1) (initState l k.toNat)) := by
  simp only [sample_iter]
  rw [if_neg (by omega), if_neg (by omega)]
  cases sampleLoop l k.toNat rand rr (l.length + 1) (initState l k.toNat) with
  | none => rfl
  | some r => cases r with
    | error e => rfl
    | ok s => rfl

/-! ### The short-stream case and the output comprehension at concrete states -/

/-- When the stream is not longer than `k`, the first loop iteration already
exhausts the stream (skip-advance hits `StopIteration`), so the reservoir is
left exactly as filled. -/
theorem sampleLoop_small {l : List α} {k : ℕ} {rand : ℕ → ℝ} {rr : ℕ → ℕ}
    (hk : 1 ≤ k) (hnk : l.length ≤ k) (hr : ∀ i, 0 < rand i ∧ rand i < 1) :
    ∃ W, sampleLoop l k rand rr (l.length + 1) (initState l k) =
      some (.ok { initState l k with w := W, pos := l.length }) := by
  have hw0 : 0 < (initState l k).w := by simp [initState]
  have hw1 : (initState l k).w ≤ 1 := by simp [initState]
  obtain ⟨W, sk, hW0, hW1, hWw, hsk0, _, _, hcase⟩ :=
    @stepFn_cases α l k rand rr (initState l k) hk hw0 hw1 hr
  have hpos : (initState l k).pos = l.length := by
    simp [initState, min_eq_right hnk]
  rcases hcase with ⟨h, _⟩ | ⟨_, hstep⟩
  · exfalso
    rw [hpos] at h
    omega
  · refine ⟨W, ?_⟩
    rw [sampleLoop, hstep]

theorem finalValues_initState (l : List α) (k : ℕ) :
    finalValues l k (initState l k) = (l.take k).map some := by
  have hlen : ((l.take k).map some).length = min k l.length := by
    simp [Nat.min_comm]
  apply List.ext_get
  · simp [finalValues, hlen]
  · intro i h₁ h₂
    simp only [finalValues, initState, List.get_eq_getElem, List.getElem_map,
      List.getElem_range]
    have hi : i < min k l.length := by
      simpa [finalValues] using h₁
    rw [getD_range _ _ hi, List.getD_eq_getElem _ _ (by rw [hlen]; exact hi)]
    simp

/-- The output comprehension ignores the `w`, `pos` and `t` fields. -/
theorem finalValues_mk_fields (l : List α) (k : ℕ) (s : SState α) (W : ℝ) (p : ℕ) :
    finalValues l k { s with w := W, pos := p } = finalValues l k s := rfl

/-- Admitting an item rewrites exactly one slot of the output comprehension:
the replacement dance through `values` and `indices` coincides with setting
slot `randrange(k)` of the slot array. -/
theorem finalValues_admission {l : List α} {k : ℕ} (s : SState α) (hinv : Inv l k s)
    (hk : 1 ≤ k) (W : ℝ) (r d : ℕ) (hd : s.pos + d < l.length) :
    finalValues l k { pos := s.pos + d + 1
                      w := W
                      values := (s.values.set (s.indices.getD (r % k) 0) none) ++
                        [some (l.get ⟨s.pos + d, hd⟩)]
                      indices := s.indices.set (r % k) s.values.length
                      srcs := s.srcs ++ [s.pos + d]
                      t := s.t + 1 } =
      (finalValues l k s).set (r % k) (some (l.get ⟨s.pos + d, hd⟩)) := by
  have hmk : min k l.length = k := min_eq_k_of_admission hinv hd
  have hrk : r % k < k := Nat.mod_lt r (by omega)
  have hridx : r % k < s.indices.length := by rw [hinv.idx_len, hmk]; exact hrk
  have hsetlen : (s.values.set (s.indices.getD (r % k) 0) none).length =
      s.values.length := by simp
  apply List.ext_get
  · simp [finalValues]
  · intro i h₁ h₂
    have hi : i < min k l.length := by simpa [finalValues] using h₁
    simp only [finalValues, List.get_eq_getElem, List.getElem_map, List.getElem_range]
    by_cases hir : i = r % k
    · subst hir
      rw [List.getElem_set_self (by simpa [finalValues, hmk] using hrk)]
      rw [getD_set_self _ _ _ _ hridx, ← hsetlen, getD_append_last]
    · rw [List.getElem_set_ne (fun hh => hir hh.symm)
        (by simpa [finalValues] using hi)]
      simp only [List.getElem_map, List.getElem_range]
      rw [getD_set_ne _ _ _ _ _ (fun hh => hir hh.symm)]
      have hiidx : i < s.indices.length := by rw [hinv.idx_len]; exact hi
      have hmem : s.indices.getD i 0 ∈ s.indices := by
        rw [List.getD_eq_getElem _ _ hiidx]
        exact List.getElem_mem hiidx
      have hlt : s.indices.getD i 0 < s.values.length := hinv.idx_lt _ hmem
      have hne : s.indices.getD i 0 ≠ s.indices.getD (r % k) 0 := by
        rw [List.getD_eq_getElem _ _ hiidx, List.getD_eq_getElem _ _ hridx]
        intro hcontra
        exact hir ((hinv.idx_nodup.getElem_inj_iff).mp hcontra)
      rw [getD_append_left _ _ _ _ (by rwa [hsetlen]),
        getD_set_ne _ _ _ _ _ (fun hh => hne hh.symm)]

/-! ### Refinement: the values/indices bookkeeping equals direct slot semantics -/

theorem sampleLoop_slotLoop {l : List α} {k : ℕ} {rand : ℕ → ℝ} {rr : ℕ → ℕ}
    (hk : 1 ≤ k) :
    ∀ (fuel : ℕ) (s : SState α), Inv l k s →
      slotLoop l k rand rr fuel s.pos s.w s.t (finalValues l k s) =
        Option.map (Except.map fun s' => finalValues l k s')
          (sampleLoop l k rand rr fuel s) := by
  intro fuel
  induction fuel with
  | zero => intro s _; rfl
  | succ fuel ih =>
    intro s hinv
    rw [sampleLoop, stepFn.eq_1, slotLoop]
    cases hds : drawStep k s.w (rand (2 * s.t)) (rand (2 * s.t + 1)) with
    | error e => rfl
    | ok p =>
      obtain ⟨W, osk⟩ := p
      cases osk with
      | none => rfl
      | some skip =>
        dsimp only
        by_cases hneg : skip < 0
        · rw [if_pos hneg, if_pos hneg]
          rfl
        · rw [if_neg hneg, if_neg hneg]
          by_cases hlt : s.pos + skip.toNat < l.length
          · rw [dif_pos hlt, dif_pos hlt]
            have hinv2 := inv_admission s hinv hk W (rr s.t) skip.toNat hlt
            have := ih _ hinv2
            dsimp only at this
            rw [finalValues_admission s hinv hk W (rr s.t) skip.toNat hlt] at this
            exact this
          · rw [dif_neg hlt, dif_neg hlt]
            rfl

theorem slotRun_eq (l : List α) (k : ℤ) (hk : 1 ≤ k) (rand : ℕ → ℝ) (rr : ℕ → ℕ) :
    slotRun l k rand rr = Option.map (Except.map fun s' => finalValues l k.toNat s')
      (sampleLoop l k.toNat rand rr (l.length + 1) (initState l k.toNat)) := by
  rw [slotRun, if_neg (by omega), if_neg (by omega),
    ← finalValues_initState l k.toNat]
  exact sampleLoop_slotLoop (by omega) (l.length + 1) (initState l k.toNat)
    (inv_init l k.toNat)

/-- Along any run of the loop from the initial state, with in-range draws,
the accumulator stays in `(0, 1]`. -/
theorem reaches_w {l : List α} {k : ℕ} {rand : ℕ → ℝ} {rr : ℕ → ℕ} (hk : 1 ≤ k)
    (hr : ∀ i, 0 < rand i ∧ rand i < 1) {s : SState α}
    (h : Reaches l k rand rr (initState l k) s) : 0 < s.w ∧ s.w ≤ 1 := by
  induction h with
  | refl => constructor <;> simp [initState]
  | step _ hcont ih =>
    obtain ⟨W, sk, hW0, hW1, hWw, hsk0, _, _, hcase⟩ :=
      stepFn_cases _ hk ih.1 ih.2 hr
    rcases hcase with ⟨hd, hstep⟩ | ⟨hd, hstep⟩
    · have hcc := hcont.symm.trans hstep
      injection hcc with hcc'
      rw [hcc']
      exact ⟨hW0, le_of_lt hW1⟩
    · exact StepOut.noConfusion (hcont.symm.trans hstep)

/-- One continuing iteration never increases the accumulator. -/
theorem stepFn_cont_w_le {l : List α} {k : ℕ} {rand : ℕ → ℝ} {rr : ℕ → ℕ}
    {s s' : SState α} (hk : 1 ≤ k) (hw0 : 0 < s.w) (hw1 : s.w ≤ 1)
    (hr : ∀ i, 0 < rand i ∧ rand i < 1)
    (hcont : stepFn l k rand rr s = .cont s') : s'.w ≤ s.w := by
  obtain ⟨W, sk, hW0, hW1, hWw, hsk0, _, _, hcase⟩ :=
    stepFn_cases s hk hw0 hw1 hr
  rcases hcase with ⟨hd, hstep⟩ | ⟨hd, hstep⟩
  · have hcc := hcont.symm.trans hstep
    injection hcc with hcc'
    rw [hcc']
    exact hWw
  · exact StepOut.noConfusion (hcont.symm.trans hstep)

/-! ### The claims -/

/-- C1: for `k >= 1` and a finite stream longer than `k` (with the generator
draws in `(0,1)`, the range the spec gives for them), `sample_iter` returns a
list of length exactly `k` whose members all come from the stream, with each
output element tracing to a distinct input index; and throughout the call the
reservoir size equals `min k (items consumed so far)`. -/
theorem c1_large_stream_output (l : List α) (k : ℤ) (sh : Bool)
    (rand : ℕ → ℝ) (rr sj : ℕ → ℕ) (hk : 1 ≤ k) (hn : k.toNat < l.length)
    (hr : ∀ i, 0 < rand i ∧ rand i < 1) :
    (∃ out, sample_iter l k sh rand rr sj = some (.ok out) ∧
      out.length = k.toNat ∧
      (∀ o ∈ out, ∃ v, o = some v ∧ v ∈ l) ∧
      TracesDistinct l out) ∧
    (∀ s : SState α, Reaches l k.toNat rand rr (initState l k.toNat) s →
      s.indices.length = min k.toNat s.pos) := by
  have hkn : 1 ≤ k.toNat := by omega
  constructor
  · obtain ⟨s, hs, hinv⟩ := @sampleLoop_ok α l k.toNat rand rr hkn hr (l.length + 1)
      (initState l k.toNat) (inv_init l k.toNat) (by simp [initState])
      (by simp [initState]) (by simp only [initState]; omega)
    have hbase_len : (finalValues l k.toNat s).length = k.toNat := by
      rw [finalValues_length, min_eq_left (by omega)]
    have hbase_mem := finalValues_mem hinv
    have hbase_tr := finalValues_traces hinv
    have hperm : List.Perm (if sh then pyShuffle sj (finalValues l k.toNat s)
        else finalValues l k.toNat s) (finalValues l k.toNat s) := by
      cases sh
      · exact List.Perm.refl _
      · exact pyShuffle_perm sj _
    refine ⟨if sh then pyShuffle sj (finalValues l k.toNat s)
      else finalValues l k.toNat s, ?_, ?_, ?_, ?_⟩
    · rw [sample_iter_eq_map l k hk sh rand rr sj, hs]
      rfl
    · rw [hperm.length_eq, hbase_len]
    · intro o ho
      exact hbase_mem o (hperm.mem_iff.mp ho)
    · exact hbase_tr.perm hperm.symm
  · intro s hre
    have hinv := reaches_inv hkn hre
    have h1 := hinv.pos_ge
    have h2 := hinv.pos_le
    rw [hinv.idx_len]
    omega

theorem c1_large_stream_output_witness :
    ((1 : ℤ) ≤ 1 ∧ (1 : ℤ).toNat < ([0, 1] : List ℕ).length ∧
      (∀ i : ℕ, 0 < (fun _ : ℕ => (1 : ℝ) / 2) i ∧ (fun _ : ℕ => (1 : ℝ) / 2) i < 1)) ∧
    ((∃ out, sample_iter ([0, 1] : List ℕ) 1 false (fun _ => (1 : ℝ) / 2)
        (fun _ => 0) (fun _ => 0) = some (.ok out) ∧
      out.length = (1 : ℤ).toNat ∧
      (∀ o ∈ out, ∃ v, o = some v ∧ v ∈ ([0, 1] : List ℕ)) ∧
      TracesDistinct [0, 1] out) ∧
    (∀ s : SState ℕ, Reaches [0, 1] (1 : ℤ).toNat (fun _ => (1 : ℝ) / 2)
        (fun _ => 0) (initState [0, 1] (1 : ℤ).toNat) s →
      s.indices.length = min (1 : ℤ).toNat s.pos)) :=
  ⟨⟨by norm_num, by norm_num, fun i => by norm_num⟩,
    c1_large_stream_output [0, 1] 1 false (fun _ => (1 : ℝ) / 2) (fun _ => 0)
      (fun _ => 0) (by norm_num) (by norm_num) (fun i => by norm_num)⟩

/-- C2: for `k >= 1` and a stream no longer than `k` (draws in `(0,1)`),
`sample_iter` returns, without error, a permutation of the whole stream —
the same contents as a set — with length `n`; in particular the empty stream
gives the empty result. -/
theorem c2_small_stream_output (l : List α) (k : ℤ) (sh : Bool)
    (rand : ℕ → ℝ) (rr sj : ℕ → ℕ) (hk : 1 ≤ k) (hn : l.length ≤ k.toNat)
    (hr : ∀ i, 0 < rand i ∧ rand i < 1) :
    ∃ out, sample_iter l k sh rand rr sj = some (.ok out) ∧
      List.Perm out (l.map some) ∧ out.length = l.length := by
  have hkn : 1 ≤ k.toNat := by omega
  obtain ⟨W, hsmall⟩ := @sampleLoop_small α l k.toNat rand rr hkn hn hr
  rw [sample_iter_eq_map l k hk sh rand rr sj, hsmall]
  have hbase : finalValues l k.toNat
      { initState l k.toNat with w := W, pos := l.length } = l.map some := by
    rw [finalValues_mk_fields, finalValues_initState, List.take_of_length_le hn]
  have hperm : List.Perm (if sh then pyShuffle sj (finalValues l k.toNat
      { initState l k.toNat with w := W, pos := l.length })
      else finalValues l k.toNat
        { initState l k.toNat with w := W, pos := l.length }) (l.map some) := by
    rw [hbase]
    cases sh
    · exact List.Perm.refl _
    · exact pyShuffle_perm sj _
  refine ⟨_, rfl, hperm, ?_⟩
  rw [hperm.length_eq, List.length_map]

theorem c2_small_stream_output_witness :
    ((1 : ℤ) ≤ 2 ∧ ([5] : List ℕ).length ≤ (2 : ℤ).toNat ∧
      (∀ i : ℕ, 0 < (fun _ : ℕ => (1 : ℝ) / 2) i ∧ (fun _ : ℕ => (1 : ℝ) / 2) i < 1)) ∧
    (∃ out, sample_iter ([5] : List ℕ) 2 true (fun _ => (1 : ℝ) / 2)
        (fun _ => 0) (fun _ => 0) = some (.ok out) ∧
      List.Perm out (([5] : List ℕ).map some) ∧ out.length = ([5] : List ℕ).length) :=
  ⟨⟨by norm_num, by norm_num, fun i => by norm_num⟩,
    c2_small_stream_output [5] 2 true (fun _ => (1 : ℝ) / 2) (fun _ => 0)
      (fun _ => 0) (by norm_num) (by norm_num) (fun i => by norm_num)⟩

/-- C3: for every stream, calling `sample_iter` with `k < 1` fails with an
error — `ValueError` from `islice` for `k < 0`, `ZeroDivisionError` from
`1. / k` for `k = 0` (the concrete exceptions behind the abstract
`InvalidArgument` of the spec) — and no list is ever returned. -/
theorem c3_k_lt_one_errors (l : List α) (k : ℤ) (sh : Bool)
    (rand : ℕ → ℝ) (rr sj : ℕ → ℕ) (hk : k < 1) :
    ∃ e, sample_iter l k sh rand rr sj = some (.error e) ∧
      ∀ out, sample_iter l k sh rand rr sj ≠ some (.ok out) := by
  by_cases h0 : k < 0
  · refine ⟨.valueError, ?_, ?_⟩ <;> simp [sample_iter, if_pos h0]
  · have h1 : k = 0 := by omega
    refine ⟨.zeroDivisionError, ?_, ?_⟩ <;> simp [sample_iter, h1]

theorem c3_k_lt_one_errors_witness :
    ((0 : ℤ) < 1 ∧ (-5 : ℤ) < 1) ∧
    (∃ e, sample_iter ([0, 1] : List ℕ) 0 true (fun _ => (1 : ℝ) / 2)
        (fun _ => 0) (fun _ => 0) = some (.error e) ∧
      ∀ out, sample_iter ([0, 1] : List ℕ) 0 true (fun _ => (1 : ℝ) / 2)
        (fun _ => 0) (fun _ => 0) ≠ some (.ok out)) ∧
    (∃ e, sample_iter ([0, 1] : List ℕ) (-5) true (fun _ => (1 : ℝ) / 2)
        (fun _ => 0) (fun _ => 0) = some (.error e) ∧
      ∀ out, sample_iter ([0, 1] : List ℕ) (-5) true (fun _ => (1 : ℝ) / 2)
        (fun _ => 0) (fun _ => 0) ≠ some (.ok out)) :=
  ⟨⟨by norm_num, by norm_num⟩,
    c3_k_lt_one_errors [0, 1] 0 true (fun _ => (1 : ℝ) / 2) (fun _ => 0)
      (fun _ => 0) (by norm_num),
    c3_k_lt_one_errors [0, 1] (-5) true (fun _ => (1 : ℝ) / 2) (fun _ => 0)
      (fun _ => 0) (by norm_num)⟩

/-- C4: one pass of the loop arithmetic computes exactly what the spec says:
`W_next = W * U^(1/k)`; the loop terminates if `W_next >= 1.0`; otherwise the
skip count is `floor(ln U_fresh / ln (1 - W_next))` from a second, distinct
draw (the code consumes draw `2t` for `U` and draw `2t+1` for the fresh one,
and `log1p (-W)` is `ln (1 - W)`). -/
theorem c4_draw_step_matches_spec (k : ℕ) (w u ufresh : ℝ) (t : ℕ)
    (hk : 1 ≤ k) (hw : 0 < w) (hu : 0 < u) (hu' : 0 < ufresh) :
    drawStep k w u ufresh = .ok
      (match specDrawStep k w u ufresh with
        | none => (w * u ^ ((1 : ℝ) / (k : ℝ)), none)
        | some p => (p.1, some p.2)) ∧
    2 * t + 1 ≠ 2 * t := by
  refine ⟨?_, by omega⟩
  have hW0 : 0 < w * u ^ ((1 : ℝ) / (k : ℝ)) :=
    mul_pos hw (Real.rpow_pos_of_pos hu _)
  simp only [drawStep, specDrawStep, pyLog, pyLog1p]
  by_cases hW : 1 ≤ w * u ^ ((1 : ℝ) / (k : ℝ))
  · rw [if_pos hW, if_pos hW]
  · rw [if_neg hW, if_neg hW, if_neg (not_le.mpr hu'),
      if_neg (show ¬ -(w * u ^ ((1 : ℝ) / (k : ℝ))) ≤ -1 by
        intro hc; exact hW (by linarith))]
    have hden : Real.log (1 + -(w * u ^ ((1 : ℝ) / (k : ℝ)))) < 0 := by
      rw [show (1 : ℝ) + -(w * u ^ ((1 : ℝ) / (k : ℝ))) =
        1 - w * u ^ ((1 : ℝ) / (k : ℝ)) from by ring]
      exact Real.log_neg (by linarith [not_le.mp hW]) (by linarith)
    dsimp only
    rw [if_neg (ne_of_lt hden)]
    rw [show (1 : ℝ) + -(w * u ^ ((1 : ℝ) / (k : ℝ))) =
      1 - w * u ^ ((1 : ℝ) / (k : ℝ)) from by ring]

theorem c4_draw_step_matches_spec_witness :
    (1 ≤ 1 ∧ (0 : ℝ) < 1 ∧ (0 : ℝ) < 1 / 2 ∧ (0 : ℝ) < 1 / 3) ∧
    (drawStep 1 1 (1 / 2) (1 / 3) = .ok
      (match specDrawStep 1 1 (1 / 2) (1 / 3) with
        | none => ((1 : ℝ) * (1 / 2 : ℝ) ^ ((1 : ℝ) / ((1 : ℕ) : ℝ)), none)
        | some p => (p.1, some p.2)) ∧
    2 * 0 + 1 ≠ 2 * 0) :=
  ⟨⟨by norm_num, by norm_num, by norm_num, by norm_num⟩,
    c4_draw_step_matches_spec 1 1 (1 / 2) (1 / 3) 0 (by norm_num) (by norm_num)
      (by norm_num) (by norm_num)⟩

/-- C5: single forward pass.  Under in-range draws, every iteration of the
loop either advances the stream by exactly `skip` discarded items plus the one
admitted item — read at position `pos + skip` and written, overwriting, into
the slot `randrange(k) < k` — or, when fewer than `skip + 1` items remain,
terminates with the reservoir (`values`, `indices`) exactly as it was.
Moreover any continuing iteration strictly advances the read position and
never moves it beyond the stream, so no item is read twice and none is
consumed beyond what is needed. -/
theorem c5_single_pass (l : List α) (k : ℕ) (rand : ℕ → ℝ) (rr : ℕ → ℕ)
    (s : SState α) (hk : 1 ≤ k) (hw0 : 0 < s.w) (hw1 : s.w ≤ 1)
    (hr : ∀ i, 0 < rand i ∧ rand i < 1) :
    (∃ (W : ℝ) (sk : ℤ), 0 ≤ sk ∧
      ((∃ h : s.pos + sk.toNat < l.length,
          rr s.t % k < k ∧
          stepFn l k rand rr s = .cont
            { pos := s.pos + sk.toNat + 1
              w := W
              values := (s.values.set (s.indices.getD (rr s.t % k) 0) none) ++
                [some (l.get ⟨s.pos + sk.toNat, h⟩)]
              indices := s.indices.set (rr s.t % k) s.values.length
              srcs := s.srcs ++ [s.pos + sk.toNat]
              t := s.t + 1 }) ∨
        (l.length ≤ s.pos + sk.toNat ∧
          stepFn l k rand rr s = .brk { s with w := W, pos := l.length }))) ∧
    (∀ s' : SState α, stepFn l k rand rr s = .cont s' →
      s.pos < s'.pos ∧ s'.pos ≤ l.length) := by
  constructor
  · obtain ⟨W, sk, _, _, _, hsk0, _, _, hcase⟩ := stepFn_cases s hk hw0 hw1 hr
    refine ⟨W, sk, hsk0, ?_⟩
    rcases hcase with ⟨h, hstep⟩ | ⟨h, hstep⟩
    · exact Or.inl ⟨h, Nat.mod_lt _ (by omega), hstep⟩
    · exact Or.inr ⟨h, hstep⟩
  · intro s' h
    exact stepFn_cont_pos h

theorem c5_single_pass_witness :
    (1 ≤ 1 ∧ (0 : ℝ) < 1 ∧ (1 : ℝ) ≤ 1 ∧
      (∀ i : ℕ, 0 < (fun _ : ℕ => (1 : ℝ) / 2) i ∧ (fun _ : ℕ => (1 : ℝ) / 2) i < 1)) ∧
    ((∃ (W : ℝ) (sk : ℤ), 0 ≤ sk ∧
      ((∃ h : (initState [0, 1] 1).pos + sk.toNat < ([0, 1] : List ℕ).length,
          (fun _ : ℕ => 0) (initState [0, 1] 1).t % 1 < 1 ∧
          stepFn [0, 1] 1 (fun _ => (1 : ℝ) / 2) (fun _ => 0) (initState [0, 1] 1) = .cont
            { pos := (initState [0, 1] 1).pos + sk.toNat + 1
              w := W
              values := ((initState [0, 1] 1).values.set
                  ((initState [0, 1] 1).indices.getD
                    ((fun _ : ℕ => 0) (initState [0, 1] 1).t % 1) 0) none) ++
                [some (([0, 1] : List ℕ).get ⟨(initState [0, 1] 1).pos + sk.toNat, h⟩)]
              indices := (initState [0, 1] 1).indices.set
                ((fun _ : ℕ => 0) (initState [0, 1] 1).t % 1)
                (initState [0, 1] 1).values.length
              srcs := (initState [0, 1] 1).srcs ++ [(initState [0, 1] 1).pos + sk.toNat]
              t := (initState [0, 1] 1).t + 1 }) ∨
        (([0, 1] : List ℕ).length ≤ (initState [0, 1] 1).pos + sk.toNat ∧
          stepFn [0, 1] 1 (fun _ => (1 : ℝ) / 2) (fun _ => 0) (initState [0, 1] 1) =
            .brk { initState [0, 1] 1 with w := W, pos := ([0, 1] : List ℕ).length }))) ∧
    (∀ s' : SState ℕ, stepFn [0, 1] 1 (fun _ => (1 : ℝ) / 2) (fun _ => 0)
        (initState [0, 1] 1) = .cont s' →
      (initState [0, 1] 1).pos < s'.pos ∧ s'.pos ≤ ([0, 1] : List ℕ).length)) :=
  ⟨⟨by norm_num, by norm_num, by norm_num, fun i => by norm_num⟩,
    c5_single_pass [0, 1] 1 (fun _ => (1 : ℝ) / 2) (fun _ => 0) (initState [0, 1] 1)
      (by norm_num) (by simp [initState]) (by simp [initState]) (fun i => by norm_num)⟩

/-- C8: the accumulator `W` starts at `1.0` and, with draws in `(0,1)` (the
range the spec gives in step 2a), every state the loop reaches has
`W` in `(0, 1]`, and a continuing (admission) iteration never increases it. -/
theorem c8_weight_invariant (l : List α) (k : ℕ) (rand : ℕ → ℝ) (rr : ℕ → ℕ)
    (hk : 1 ≤ k) (hr : ∀ i, 0 < rand i ∧ rand i < 1) :
    (initState l k : SState α).w = 1 ∧
    (∀ s : SState α, Reaches l k rand rr (initState l k) s → 0 < s.w ∧ s.w ≤ 1) ∧
    (∀ s s' : SState α, Reaches l k rand rr (initState l k) s →
      stepFn l k rand rr s = .cont s' → s'.w ≤ s.w) := by
  refine ⟨rfl, fun s hre => reaches_w hk hr hre, fun s s' hre hcont => ?_⟩
  obtain ⟨hw0, hw1⟩ := reaches_w hk hr hre
  exact stepFn_cont_w_le hk hw0 hw1 hr hcont

theorem c8_weight_invariant_witness :
    (1 ≤ 1 ∧ (∀ i : ℕ, 0 < (fun _ : ℕ => (1 : ℝ) / 2) i ∧ (fun _ : ℕ => (1 : ℝ) / 2) i < 1)) ∧
    ((initState [0, 1] 1 : SState ℕ).w = 1 ∧
    (∀ s : SState ℕ, Reaches [0, 1] 1 (fun _ => (1 : ℝ) / 2) (fun _ => 0)
        (initState [0, 1] 1) s → 0 < s.w ∧ s.w ≤ 1) ∧
    (∀ s s' : SState ℕ, Reaches [0, 1] 1 (fun _ => (1 : ℝ) / 2) (fun _ => 0)
        (initState [0, 1] 1) s →
      stepFn [0, 1] 1 (fun _ => (1 : ℝ) / 2) (fun _ => 0) s = .cont s' →
        s'.w ≤ s.w)) :=
  ⟨⟨by norm_num, fun i => by norm_num⟩,
    c8_weight_invariant [0, 1] 1 (fun _ => (1 : ℝ) / 2) (fun _ => 0)
      (by norm_num) (fun i => by norm_num)⟩

/-- C9: determinism.  The embedded `sample_iter` is a function of the stream
and the three draw sequences of the generator alone, so two calls with
`shuffle_output = false` made from the same generator state — pointwise equal
draw sequences — return identical lists, element for element. -/
theorem c9_deterministic (l : List α) (k : ℤ) (rand₁ rand₂ : ℕ → ℝ)
    (rr₁ rr₂ sj₁ sj₂ : ℕ → ℕ) (hrand : ∀ n, rand₁ n = rand₂ n)
    (hrr : ∀ n, rr₁ n = rr₂ n) (hsj : ∀ n, sj₁ n = sj₂ n) :
    sample_iter l k false rand₁ rr₁ sj₁ = sample_iter l k false rand₂ rr₂ sj₂ := by
  rw [funext hrand, funext hrr, funext hsj]

theorem c9_deterministic_witness :
    ((∀ n : ℕ, (fun _ : ℕ => (1 : ℝ) / 2) n = (fun _ : ℕ => (1 : ℝ) / 2) n) ∧
      (∀ n : ℕ, (fun _ : ℕ => 0) n = (fun _ : ℕ => (0 : ℕ)) n) ∧
      (∀ n : ℕ, (fun _ : ℕ => 0) n = (fun _ : ℕ => (0 : ℕ)) n)) ∧
    sample_iter ([3, 4, 5] : List ℕ) 2 false (fun _ => (1 : ℝ) / 2) (fun _ => 0)
        (fun _ => 0) =
      sample_iter ([3, 4, 5] : List ℕ) 2 false (fun _ => (1 : ℝ) / 2) (fun _ => 0)
        (fun _ => 0) :=
  ⟨⟨fun n => rfl, fun n => rfl, fun n => rfl⟩,
    c9_deterministic [3, 4, 5] 2 (fun _ => (1 : ℝ) / 2) (fun _ => (1 : ℝ) / 2)
      (fun _ => 0) (fun _ => 0) (fun _ => 0) (fun _ => 0)
      (fun n => rfl) (fun n => rfl) (fun n => rfl)⟩

/-- C10: termination.  For every finite stream and every `k` (with draws in
`(0,1)` as the claim assumes), `sample_iter` terminates — the fuelled loop
never runs out of fuel `l.length + 1` — because every continuing iteration
consumes at least one stream item (`skip + 1 >= 1`), strictly advancing the
read position without passing the end of the stream. -/
theorem c10_terminates (l : List α) (k : ℤ) (sh : Bool) (rand : ℕ → ℝ)
    (rr sj : ℕ → ℕ) (hr : ∀ i, 0 < rand i ∧ rand i < 1) :
    (∃ r, sample_iter l k sh rand rr sj = some r) ∧
    (∀ s s' : SState α, stepFn l k.toNat rand rr s = .cont s' →
      s.pos < s'.pos ∧ s'.pos ≤ l.length) := by
  constructor
  · by_cases h0 : k < 0
    · exact ⟨_, by rw [sample_iter.eq_1, if_pos h0]⟩
    by_cases h1 : k = 0
    · exact ⟨_, by rw [sample_iter.eq_1, if_neg h0, if_pos h1]⟩
    obtain ⟨r, hres⟩ := @sampleLoop_isSome α l k.toNat rand rr
      (l.length + 1) (initState l k.toNat) (by simp only [initState]; omega)
    rw [sample_iter_eq_map l k (by omega) sh rand rr sj, hres]
    exact ⟨_, rfl⟩
  · intro s s' h
    exact stepFn_cont_pos h

theorem c10_terminates_witness :
    (∀ i : ℕ, 0 < (fun _ : ℕ => (1 : ℝ) / 2) i ∧ (fun _ : ℕ => (1 : ℝ) / 2) i < 1) ∧
    ((∃ r, sample_iter ([7, 8, 9] : List ℕ) 2 true (fun _ => (1 : ℝ) / 2)
        (fun _ => 0) (fun _ => 0) = some r) ∧
    (∀ s s' : SState ℕ, stepFn [7, 8, 9] (2 : ℤ).toNat (fun _ => (1 : ℝ) / 2)
        (fun _ => 0) s = .cont s' →
      s.pos < s'.pos ∧ s'.pos ≤ ([7, 8, 9] : List ℕ).length)) :=
  ⟨fun i => by norm_num,
    c10_terminates [7, 8, 9] 2 true (fun _ => (1 : ℝ) / 2) (fun _ => 0)
      (fun _ => 0) (fun i => by norm_num)⟩

/-- C6: with `shuffle_output = false`, `sample_iter` returns exactly the
slot-order reservoir: for each slot index `0..k-1` in order, the item finally
occupying that slot.  Formally, the `values`/`indices` bookkeeping of the code
is extensionally equal to the direct slot-array semantics `slotRun` read off
the spec, for all inputs (error cases included). -/
theorem c6_slot_order (l : List α) (k : ℤ) (rand : ℕ → ℝ) (rr sj : ℕ → ℕ) :
    sample_iter l k false rand rr sj = slotRun l k rand rr := by
  by_cases h0 : k < 0
  · rw [sample_iter.eq_1, slotRun, if_pos h0, if_pos h0]
  by_cases h1 : k = 0
  · rw [sample_iter.eq_1, slotRun, if_neg h0, if_pos h1, if_neg h0, if_pos h1]
  rw [sample_iter_eq_map l k (by omega) false rand rr sj,
    slotRun_eq l k (by omega) rand rr]
  rfl

/-- C7 (amended): the skip computation never raises a domain or
division-by-zero error when the uniform draws lie strictly in `(0, 1)` (for
draws in `[0, 1)`, a draw equal to `0` does raise — see the
counterexample). -/
theorem c7_amended_no_numeric_error (l : List α) (k : ℤ) (sh : Bool)
    (rand : ℕ → ℝ) (rr sj : ℕ → ℕ) (hk : 1 ≤ k)
    (hr : ∀ i, 0 < rand i ∧ rand i < 1) :
    ∀ e, sample_iter l k sh rand rr sj ≠ some (.error e) := by
  intro e
  obtain ⟨s, hs, _⟩ := @sampleLoop_ok α l k.toNat rand rr (show 1 ≤ k.toNat by omega) hr
    (l.length + 1) (initState l k.toNat) (inv_init l k.toNat)
    (by simp [initState]) (by simp [initState]) (by simp only [initState]; omega)
  rw [sample_iter_eq_map l k hk sh rand rr sj, hs]
  simp [Except.map]

theorem c7_amended_no_numeric_error_witness :
    ((1 : ℤ) ≤ 1 ∧
      (∀ i : ℕ, 0 < (fun _ : ℕ => (1 : ℝ) / 2) i ∧ (fun _ : ℕ => (1 : ℝ) / 2) i < 1)) ∧
    (∀ e, sample_iter ([0, 1] : List ℕ) 1 false (fun _ => (1 : ℝ) / 2)
      (fun _ => 0) (fun _ => 0) ≠ some (.error e)) :=
  ⟨⟨by norm_num, fun i => by norm_num⟩,
    c7_amended_no_numeric_error [0, 1] 1 false (fun _ => (1 : ℝ) / 2)
      (fun _ => 0) (fun _ => 0) (by norm_num) (fun i => by norm_num)⟩

/-- C7 (counterexample to the claim as stated): with draws merely in `[0, 1)`
— here the second `random()` call returns `0`, which the real generator can
produce — the skip computation reaches `log 0` and raises a math domain error
(`ValueError`), so the claim "given uniform draws in `[0, 1)` the skip
computation never raises" is false of the code. -/
theorem c7_domain_error_on_zero_draw :
    (∀ i : ℕ, 0 ≤ (fun n : ℕ => if n = 0 then (1 : ℝ) / 2 else 0) i ∧
      (fun n : ℕ => if n = 0 then (1 : ℝ) / 2 else 0) i < 1) ∧
    sample_iter ([0, 1, 2] : List ℕ) 1 false
      (fun n : ℕ => if n = 0 then (1 : ℝ) / 2 else 0) (fun _ => 0) (fun _ => 0) =
      some (.error .valueError) := by
  constructor
  · intro i
    by_cases hi : i = 0 <;> simp [hi] <;> norm_num
  · have hds : drawStep 1 1 ((1 : ℝ) / 2) 0 = .error .valueError := by
      simp only [drawStep, pyLog, pyLog1p]
      rw [show ((1 : ℕ) : ℝ) = 1 from by norm_num,
        show (1 : ℝ) / 1 = 1 from by norm_num, Real.rpow_one, one_mul]
      rw [if_neg (by norm_num : ¬ (1 : ℝ) ≤ 1 / 2), if_pos (le_refl (0 : ℝ))]
    have hstep : stepFn ([0, 1, 2] : List ℕ) 1
        (fun n : ℕ => if n = 0 then (1 : ℝ) / 2 else 0) (fun _ => 0)
        { pos := 1, w := 1, values := [some 0], indices := [0], srcs := [0], t := 0 } =
        .err .valueError := by
      rw [stepFn.eq_1]
      dsimp only
      rw [if_pos (by norm_num : (2 * 0 : ℕ) = 0),
        if_neg (by norm_num : ¬ ((2 * 0 + 1 : ℕ) = 0)), hds]
    have hloop : sampleLoop ([0, 1, 2] : List ℕ) 1
        (fun n : ℕ => if n = 0 then (1 : ℝ) / 2 else 0) (fun _ => 0)
        (([0, 1, 2] : List ℕ).length + 1)
        { pos := 1, w := 1, values := [some 0], indices := [0], srcs := [0], t := 0 } =
        some (.error .valueError) := by
      show sampleLoop ([0, 1, 2] : List ℕ) 1
        (fun n : ℕ => if n = 0 then (1 : ℝ) / 2 else 0) (fun _ => 0) (3 + 1)
        { pos := 1, w := 1, values := [some 0], indices := [0], srcs := [0], t := 0 } =
        some (.error .valueError)
      rw [sampleLoop, hstep]
    rw [sample_iter_eq_map [0, 1, 2] 1 (by norm_num) false _ _ _,
      show (1 : ℤ).toNat = 1 from rfl,
      show initState ([0, 1, 2] : List ℕ) 1 =
        { pos := 1, w := 1, values := [some 0], indices := [0], srcs := [0], t := 0 } from rfl,
      hloop]
    rfl

end Carabiner
